import Mathlib

/-!
Verification of the generic data-access layer ("Model") of moonmail-models:
key construction, field projection and refinement, attribute-update encoding,
the pagination-cursor codec, query-parameter assembly, schema validation and
the retrying batch-write client.  The repository ships the test suites and a
compiled entity; the Model implementation itself is modelled from the design
document, faithful to its words, and checked against the behaviours the test
suites pin down.
-/

namespace MoonMail

/-- Attribute values stored in items: strings, integer numbers, booleans and
string lists (e.g. a campaign's listIds).  Modelled from the spec: items are
mappings from attribute name to value; pagination keys carry scalar values. -/
inductive Value where
  | vS (s : String)
  | vN (n : Int)
  | vB (b : Bool)
  | vL (l : List String)
deriving DecidableEq, Repr

/-- An item: an ordered mapping from attribute name to value. -/
abbrev Item := List (String × Value)

/-- A key map: the hash-key (and optional range-key) attribute names mapped to
their values; represented like an item. -/
abbrev KeyMap := List (String × Value)

/-- Lookup of an attribute in an association list, first match wins (JS object
property access). -/
def alookup {α : Type} (k : String) : List (String × α) → Option α
  | [] => none
  | e :: rest => if e.1 = k then some e.2 else alookup k rest

/-- Options recognized by the read operations.  Modelled from the spec:
fields is a comma-separated attribute-name list, include_fields selects
store-level projection (true) or post-fetch exclusion (false), page is an
opaque cursor string. -/
structure Options where
  fields : Option String
  include_fields : Option Bool
  page : Option String
deriving DecidableEq, Repr

/-- Options value with nothing set. -/
def Options.none : Options := ⟨Option.none, Option.none, Option.none⟩

/-- Splitting accumulator: the current field read so far, reversed. -/
def splitCommaAux (cur : List Char) : List Char → List String
  | [] => [String.mk cur.reverse]
  | c :: rest =>
      if c = ',' then String.mk cur.reverse :: splitCommaAux [] rest
      else splitCommaAux (c :: cur) rest

/-- Split the comma-separated fields string into the attribute names. -/
def splitFields (s : String) : List String := splitCommaAux [] s.data

/-- Per-entity static metadata: table identifier, hash-key attribute name,
optional range-key attribute name.  Modelled from the spec (entity
descriptor). -/
structure EntityMeta where
  tableName : String
  hashKey : String
  rangeKey : Option String
deriving DecidableEq, Repr

/-- Key Builder.  Modelled from the spec: turns (hash value, optional range
value) into the store's key representation; contains the hash-key attribute
and, when the entity declares one and a value is supplied, the range-key
attribute, and never any extra attribute. -/
def buildKey (meta : EntityMeta) (h : Value) (r : Option Value) : KeyMap :=
  match meta.rangeKey, r with
  | some rk, some rv => [(meta.hashKey, h), (rk, rv)]
  | _, _ => [(meta.hashKey, h)]

/-- Attribute-update actions: PUT overwrites, ADD increments numerically. -/
inductive UpdAction where
  | PUT
  | ADD
deriving DecidableEq, Repr

/-- One attribute update: an action and the value it carries. -/
structure AttrUpdate where
  Action : UpdAction
  Value : Value
deriving DecidableEq, Repr

/-- Attribute-Update Encoder.  Modelled from the spec: every non-key attribute
of the input map is sent to (PUT, value); entries for the hash-key or
range-key attribute are silently dropped. -/
def buildAttributeUpdates (meta : EntityMeta) (ps : List (String × Value)) :
    List (String × AttrUpdate) :=
  ps.filterMap (fun e =>
    if e.1 = meta.hashKey ∨ some e.1 = meta.rangeKey then Option.none
    else some (e.1, AttrUpdate.mk UpdAction.PUT e.2))

/-- Parameter map of an update call: table, key, and the per-attribute update
table. -/
structure UpdateParams where
  TableName : String
  Key : KeyMap
  AttributeUpdates : List (String × AttrUpdate)
deriving DecidableEq, Repr

/-- Update operation parameter assembly.  Modelled from the spec: update
encodes the partial-update map through the Attribute-Update Encoder. -/
def updateParams (meta : EntityMeta) (ps : List (String × Value)) (h : Value)
    (r : Option Value) : UpdateParams :=
  ⟨meta.tableName, buildKey meta h r, buildAttributeUpdates meta ps⟩

/-- Increment operation parameter assembly.  Modelled from the spec: one
attribute name and one numeric delta, encoded as (ADD, delta). -/
def increment (meta : EntityMeta) (attr : String) (n : Int) (h : Value)
    (r : Option Value) : UpdateParams :=
  ⟨meta.tableName, buildKey meta h r, [(attr, AttrUpdate.mk UpdAction.ADD (Value.vN n))]⟩

/-- Multi-counter increment parameter assembly.  Modelled from the spec: a map
of attribute to delta, each encoded as (ADD, delta); deltas may be
negative. -/
def incrementAll (meta : EntityMeta) (h : Value) (r : Option Value)
    (deltas : List (String × Int)) : UpdateParams :=
  ⟨meta.tableName, buildKey meta h r,
    deltas.map (fun d => (d.1, AttrUpdate.mk UpdAction.ADD (Value.vN d.2)))⟩

/-- Removal of one attribute from an item (JS delete on a copy). -/
def removeAttr (it : Item) (fld : String) : Item :=
  it.filter (fun e => decide (e.1 ≠ fld))

/-- Item Refiner for one item.  Modelled from the spec: when include_fields is
false and fields is non-empty, remove every listed attribute from the item;
otherwise pass the item through unchanged. -/
def refineItem (item : Item) (o : Options) : Item :=
  match o.include_fields, o.fields with
  | some false, some f =>
      if f = "" then item else (splitFields f).foldl removeAttr item
  | _, _ => item

/-- Item Refiner for an ordered sequence of items.  Modelled from the spec:
refines each item independently, preserving order; pass-through when no
exclusion applies. -/
def refineItems (items : List Item) (o : Options) : List Item :=
  match o.include_fields, o.fields with
  | some false, some f =>
      if f = "" then items else items.map (fun it => refineItem it o)
  | _, _ => items

/-- Membership test of a string in a list of field names. -/
def memStr (s : String) : List String → Bool
  | [] => false
  | x :: xs => if x = s then true else memStr s xs

/-- Store verbs the Retrying Client dispatches on. -/
inductive Verb where
  | vget
  | vquery
  | vput
  | vupdate
  | vdelete
  | vbatchWrite
deriving DecidableEq, Repr

/-- Request items of a batch write: a mapping from table name to the records
destined for that table. -/
abbrev RequestItems := List (String × List Item)

/-- Parameter map handed to the Retrying Client: a table name for the
single-shot verbs, request items for batch writes. -/
structure ClientParams where
  TableName : Option String
  RequestItems : RequestItems
deriving DecidableEq, Repr

/-- Response of one batch-write store call: the records the store left
unprocessed, keyed by table, plus the rest of the response payload. -/
structure BatchResult where
  payload : List (String × Value)
  UnprocessedItems : RequestItems
deriving DecidableEq, Repr

instance : Inhabited BatchResult := ⟨⟨[], []⟩⟩

/-- Store capability for batch writes: the response to the given request items
on the given attempt (attempts numbered from 0). -/
abbrev BatchStore := Nat → RequestItems → BatchResult

/-- Retrying batch-write loop, recorded as the trace of attempts.  Modelled
from the spec: submit the batch; if the store reports no unprocessed records
stop; otherwise re-submit exactly the unprocessed records, until the retry
counter reaches the process-wide maximum.  Each trace entry is the submitted
request items paired with the store's response; the fuel is the number of
retries still allowed. -/
def batchAttempts (store : BatchStore) (attempt : Nat) (req : RequestItems) :
    Nat → List (RequestItems × BatchResult)
  | 0 => [(req, store attempt req)]
  | fuel + 1 =>
      if (store attempt req).UnprocessedItems.isEmpty then [(req, store attempt req)]
      else (req, store attempt req) ::
        batchAttempts store (attempt + 1) (store attempt req).UnprocessedItems fuel

/-- Request items submitted on the final attempt of the batch-write loop. -/
def lastSubmitted (store : BatchStore) (attempt : Nat) (req : RequestItems) :
    Nat → RequestItems
  | 0 => req
  | fuel + 1 =>
      if (store attempt req).UnprocessedItems.isEmpty then req
      else lastSubmitted store (attempt + 1) (store attempt req).UnprocessedItems fuel

/-- Validation of the Retrying Client.  Modelled from the spec: params must
identify a target table — a table name for the single-shot verbs, at least one
table among the request items for a batch write. -/
def identifiesTable (v : Verb) (p : ClientParams) : Bool :=
  match v with
  | Verb.vbatchWrite => !p.RequestItems.isEmpty
  | _ => p.TableName.isSome

/-- Result of one Retrying Client execution: a plain response map for the
single-shot verbs, a batch response for batch writes. -/
inductive ExecOut where
  | plain (r : List (String × Value))
  | batch (r : BatchResult)
deriving DecidableEq, Repr

/-- Retrying Client.  Modelled from the spec: execute(verb, params) validates
that params identify a target table and fails with an invalid-parameters
error before any store interaction otherwise; batch writes run the retry
loop and return the last attempt's response as a success; every other verb is
single-shot.  The first component counts the underlying store calls. -/
def execute (sStore : Verb → ClientParams → List (String × Value))
    (bStore : BatchStore) (maxRetries : Nat) (v : Verb) (p : ClientParams) :
    Nat × Except String ExecOut :=
  if identifiesTable v p then
    match v with
    | Verb.vbatchWrite =>
        ((batchAttempts bStore 0 p.RequestItems maxRetries).length,
          Except.ok (ExecOut.batch
            ((batchAttempts bStore 0 p.RequestItems maxRetries).getLastD default).2))
    | _ => (1, Except.ok (ExecOut.plain (sStore v p)))
  else (0, Except.error "Invalid params")

/-- Double-quote character of the JSON text encoding. -/
def quoteC : Char := Char.ofNat 34

/-- Backslash character, the JSON escape prefix. -/
def backslashC : Char := Char.ofNat 92

/-- Opening brace of a JSON object. -/
def lbraceC : Char := Char.ofNat 123

/-- Closing brace of a JSON object. -/
def rbraceC : Char := Char.ofNat 125

/-- Digit character for a value below ten. -/
def digitChar (d : Nat) : Char := Char.ofNat (48 + d)

/-- Test for an ASCII digit character. -/
def isDigitC (c : Char) : Bool := decide (48 ≤ c.toNat ∧ c.toNat ≤ 57)

/-- Numeric value of an ASCII digit character. -/
def digitVal (c : Char) : Nat := c.toNat - 48

/-- Decimal digits of a natural number, most significant first. -/
def natToChars (n : Nat) : List Char :=
  if n < 10 then [digitChar n]
  else natToChars (n / 10) ++ [digitChar (n % 10)]
decreasing_by exact Nat.div_lt_self (by omega) (by omega)

/-- Decimal rendering of an integer, a leading minus sign when negative. -/
def intToChars (i : Int) : List Char :=
  if i < 0 then '-' :: natToChars i.natAbs else natToChars i.toNat

/-- JSON string-body escaping: a backslash is prefixed to every double quote
and backslash, all other characters pass through. -/
def escapeChars : List Char → List Char
  | [] => []
  | c :: rest =>
      (if c = quoteC ∨ c = backslashC then [backslashC, c] else [c]) ++ escapeChars rest

/-- JSON rendering of a string: the escaped body between double quotes. -/
def serializeStr (s : String) : List Char :=
  quoteC :: (escapeChars s.data ++ [quoteC])

/-- JSON rendering of a scalar value.  Only strings and numbers appear in
pagination keys; the other constructors render as nothing. -/
def serializeScalar : Value → List Char
  | Value.vS s => serializeStr s
  | Value.vN n => intToChars n
  | Value.vB _ => []
  | Value.vL _ => []

/-- JSON rendering of one object entry: quoted name, colon, value. -/
def entryChars (e : String × Value) : List Char :=
  serializeStr e.1 ++ ':' :: serializeScalar e.2

/-- JSON rendering of the comma-separated entries of an object. -/
def entriesChars : KeyMap → List Char
  | [] => []
  | [e] => entryChars e
  | e :: rest => entryChars e ++ ',' :: entriesChars rest

/-- JSON rendering of a key map as an object.  Modelled from the spec: the
pagination codec serializes the key map as a length-prefix-free text
encoding. -/
def serializeKeyMap (k : KeyMap) : List Char :=
  lbraceC :: (entriesChars k ++ [rbraceC])

/-- Parse of a JSON string body after the opening quote: unescapes and stops
at the closing quote, returning the body and the unconsumed tail. -/
def parseStringBody : List Char → Option (List Char × List Char)
  | [] => Option.none
  | c :: rest =>
      if c = quoteC then some ([], rest)
      else if c = backslashC then
        match rest with
        | [] => Option.none
        | e :: rest2 =>
            if e = quoteC ∨ e = backslashC then
              match parseStringBody rest2 with
              | some (s, r) => some (e :: s, r)
              | Option.none => Option.none
            else Option.none
      else
        match parseStringBody rest with
        | some (s, r) => some (c :: s, r)
        | Option.none => Option.none

/-- Longest leading run of digit characters, and the tail after it. -/
def takeDigits : List Char → List Char × List Char
  | [] => ([], [])
  | c :: rest =>
      if isDigitC c then
        let p := takeDigits rest
        (c :: p.1, p.2)
      else ([], c :: rest)

/-- Numeric value of a digit run, most significant first, on top of an
accumulator. -/
def digitsVal (acc : Nat) : List Char → Nat
  | [] => acc
  | c :: rest => digitsVal (acc * 10 + digitVal c) rest

/-- Parse of a JSON number: an optional minus sign and a nonempty digit
run. -/
def parseNum : List Char → Option (Value × List Char)
  | [] => Option.none
  | c :: rest =>
      if c = '-' then
        let p := takeDigits rest
        if p.1.isEmpty then Option.none
        else some (Value.vN (-(digitsVal 0 p.1 : Int)), p.2)
      else
        let p := takeDigits (c :: rest)
        if p.1.isEmpty then Option.none
        else some (Value.vN (digitsVal 0 p.1 : Int), p.2)

/-- Parse of a JSON scalar: a quoted string or a number. -/
def parseScalar (cs : List Char) : Option (Value × List Char) :=
  match cs with
  | [] => Option.none
  | c :: rest =>
      if c = quoteC then
        match parseStringBody rest with
        | some (s, r) => some (Value.vS (String.mk s), r)
        | Option.none => Option.none
      else parseNum cs

/-- Parse of the entries of a nonempty JSON object, positioned right after
the opening brace or a separating comma; consumes the closing brace.  The
fuel bounds the number of entries. -/
def parseEntriesAux : Nat → List Char → Option (KeyMap × List Char)
  | 0, _ => Option.none
  | fuel + 1, cs =>
      match cs with
      | [] => Option.none
      | c :: rest =>
          if c = quoteC then
            match parseStringBody rest with
            | some (name, r1) =>
                match r1 with
                | ':' :: r2 =>
                    match parseScalar r2 with
                    | some (v, r3) =>
                        match r3 with
                        | [] => Option.none
                        | c2 :: r4 =>
                            if c2 = ',' then
                              match parseEntriesAux fuel r4 with
                              | some (es, r5) => some ((String.mk name, v) :: es, r5)
                              | Option.none => Option.none
                            else if c2 = rbraceC then some ([(String.mk name, v)], r4)
                            else Option.none
                    | Option.none => Option.none
                | _ => Option.none
            | Option.none => Option.none
          else Option.none

/-- Parse of a whole JSON object holding a key map; the input must be fully
consumed, a malformed text yields nothing. -/
def parseKeyMap (cs : List Char) : Option KeyMap :=
  match cs with
  | [] => Option.none
  | c :: rest =>
      if c = lbraceC then
        match rest with
        | [] => Option.none
        | c2 :: r2 =>
            if c2 = rbraceC then (if r2.isEmpty then some [] else Option.none)
            else
              match parseEntriesAux cs.length rest with
              | some (es, r) => if r.isEmpty then some es else Option.none
              | Option.none => Option.none
      else Option.none

/-- Character of the URL-safe base64 alphabet for a six-bit value. -/
def b64char (n : Nat) : Char :=
  if n < 26 then Char.ofNat (65 + n)
  else if n < 52 then Char.ofNat (97 + (n - 26))
  else if n < 62 then Char.ofNat (48 + (n - 52))
  else if n = 62 then '-'
  else '_'

/-- Six-bit value of a URL-safe base64 character, nothing for a character
outside the alphabet. -/
def b64val (c : Char) : Option Nat :=
  if 65 ≤ c.toNat ∧ c.toNat ≤ 90 then some (c.toNat - 65)
  else if 97 ≤ c.toNat ∧ c.toNat ≤ 122 then some (26 + (c.toNat - 97))
  else if 48 ≤ c.toNat ∧ c.toNat ≤ 57 then some (52 + (c.toNat - 48))
  else if c = '-' then some 62
  else if c = '_' then some 63
  else Option.none

/-- URL-safe, unpadded base64 encoding of a byte sequence. -/
def b64encode : List Nat → List Char
  | [] => []
  | [b1] => [b64char (b1 / 4), b64char (b1 % 4 * 16)]
  | [b1, b2] => [b64char (b1 / 4), b64char (b1 % 4 * 16 + b2 / 16), b64char (b2 % 16 * 4)]
  | b1 :: b2 :: b3 :: rest =>
      b64char (b1 / 4) :: b64char (b1 % 4 * 16 + b2 / 16) ::
        b64char (b2 % 16 * 4 + b3 / 64) :: b64char (b3 % 64) :: b64encode rest

/-- URL-safe, unpadded base64 decoding back to the byte sequence; nothing on
a character outside the alphabet or a leftover single character. -/
def b64decode : List Char → Option (List Nat)
  | [] => some []
  | [_] => Option.none
  | [c1, c2] =>
      match b64val c1, b64val c2 with
      | some v1, some v2 => some [v1 * 4 + v2 / 16]
      | _, _ => Option.none
  | [c1, c2, c3] =>
      match b64val c1, b64val c2, b64val c3 with
      | some v1, some v2, some v3 => some [v1 * 4 + v2 / 16, v2 % 16 * 16 + v3 / 4]
      | _, _, _ => Option.none
  | c1 :: c2 :: c3 :: c4 :: rest =>
      match b64val c1, b64val c2, b64val c3, b64val c4, b64decode rest with
      | some v1, some v2, some v3, some v4, some bs =>
          some ((v1 * 4 + v2 / 16) :: (v2 % 16 * 16 + v3 / 4) :: (v3 % 4 * 64 + v4) :: bs)
      | _, _, _, _, _ => Option.none

/-- Pagination-token encoder.  Modelled from the spec: the key map is
serialized as JSON and the text is base64url-encoded into an opaque,
URL-safe token (the source computes base64url.encode(JSON.stringify(key))). -/
def nextPage (k : KeyMap) : String :=
  String.mk (b64encode ((serializeKeyMap k).map Char.toNat))

/-- Pagination-token decoder.  Modelled from the spec: reverses the encoding
back into the store's continuation key map; a malformed token yields nothing
and fails the operation. -/
def lastEvaluatedKeyOf (tok : String) : Option KeyMap :=
  match b64decode tok.data with
  | some bs => parseKeyMap (bs.map Char.ofNat)
  | Option.none => Option.none

/-- ASCII test for a character. -/
def asciiChar (c : Char) : Bool := decide (c.toNat < 128)

/-- ASCII test for a string. -/
def asciiStr (s : String) : Bool := s.data.all asciiChar

/-- Test that a value is a scalar the pagination codec carries: a string or a
number. -/
def scalarValue : Value → Bool
  | Value.vS _ => true
  | Value.vN _ => true
  | _ => false

/-- ASCII test for a scalar value. -/
def asciiValue : Value → Bool
  | Value.vS s => asciiStr s
  | _ => true

/-- Validity of a key map for the pagination codec: scalar ASCII values,
ASCII attribute names, no duplicate attribute. -/
def ValidKeyMap (k : KeyMap) : Prop :=
  (∀ e ∈ k, scalarValue e.2 = true ∧ asciiStr e.1 = true ∧ asciiValue e.2 = true) ∧
    (k.map Prod.fst).Nodup

/-- Character test for the URL-safe token alphabet: letters, digits, hyphen
and underscore. -/
def urlSafeChar (c : Char) : Bool :=
  decide ((65 ≤ c.toNat ∧ c.toNat ≤ 90) ∨ (97 ≤ c.toNat ∧ c.toNat ≤ 122) ∨
    (48 ≤ c.toNat ∧ c.toNat ≤ 57) ∨ c = '-' ∨ c = '_')

/-- Parameter map of a query call. -/
structure QueryParams where
  TableName : String
  KeyConditionExpression : String
  ExpressionAttributeNames : List (String × String)
  ExpressionAttributeValues : List (String × Value)
  ProjectionExpression : Option String
  ExclusiveStartKey : Option KeyMap
  SelectCount : Bool
deriving DecidableEq, Repr

/-- Options Builder.  Modelled from the spec: when fields is nonempty and
include_fields is true, a projection expression listing one placeholder per
requested attribute, comma-joined, plus the substitution table mapping each
placeholder to the literal attribute name; otherwise nothing. -/
def buildOptions (o : Options) : Option (String × List (String × String)) :=
  match o.include_fields, o.fields with
  | some true, some f =>
      if f = "" then Option.none
      else
        let fs := splitFields f
        some (String.intercalate "," (fs.map (fun a => "#" ++ a)),
          fs.map (fun a => ("#" ++ a, a)))
  | _, _ => Option.none

/-- Query-parameter assembly of allBy.  Modelled from the spec: an equality
condition on one attribute through the fixed template with name and value
substitution tables, the optional projection, and the decoded page cursor as
the exclusive start key; a malformed cursor fails the operation. -/
def allByParams (meta : EntityMeta) (key : String) (value : Value)
    (o : Options) : Except String QueryParams :=
  let base : QueryParams :=
    ⟨meta.tableName, "#hkey = :hvalue", [("#hkey", key)], [(":hvalue", value)],
      Option.none, Option.none, false⟩
  let withProj : QueryParams :=
    match buildOptions o with
    | some pr =>
        { base with
            ProjectionExpression := some pr.1,
            ExpressionAttributeNames := base.ExpressionAttributeNames ++ pr.2 }
    | Option.none => base
  match o.page with
  | Option.none => Except.ok withProj
  | some tok =>
      match lastEvaluatedKeyOf tok with
      | some k => Except.ok { withProj with ExclusiveStartKey := some k }
      | Option.none => Except.error "Malformed page token"

/-- Query-parameter assembly of countBy.  Modelled from the spec: the same
equality condition as allBy, count-only. -/
def countByParams (meta : EntityMeta) (key : String) (value : Value) : QueryParams :=
  ⟨meta.tableName, "#hkey = :hvalue", [("#hkey", key)], [(":hvalue", value)],
    Option.none, Option.none, true⟩

/-- Raw result of a store query: the returned items in order and the store's
own continuation marker when more data exists. -/
structure QueryResult where
  Items : List Item
  LastEvaluatedKey : Option KeyMap
deriving DecidableEq, Repr

/-- Page result returned to the caller: the refined items and the opaque
cursor of the next page, when one exists. -/
structure PageResult where
  items : List Item
  nextPage : Option String
deriving DecidableEq, Repr

/-- Key of an item: its hash-key and range-key attribute values. -/
def buildItemKey (meta : EntityMeta) (it : Item) : KeyMap :=
  (match alookup meta.hashKey it with
   | some v => [(meta.hashKey, v)]
   | Option.none => []) ++
  (match meta.rangeKey with
   | some rk =>
       match alookup rk it with
       | some v => [(rk, v)]
       | Option.none => []
   | Option.none => [])

/-- Pagination encoder of a query result.  Modelled from the spec: when the
store signals a continuation and the page is nonempty, the cursor is built
from the hash-key and range-key values of the last item actually returned,
not from the store's own marker. -/
def buildPaginationKey (meta : EntityMeta) (res : QueryResult) : Option String :=
  match res.LastEvaluatedKey, res.Items.getLast? with
  | some _, some it => some (nextPage (buildItemKey meta it))
  | _, _ => Option.none

/-- Query operation allBy.  Modelled from the spec: assemble the query
parameters, run the store query, refine the items and attach the next-page
cursor. -/
def allBy (meta : EntityMeta) (key : String) (value : Value) (o : Options)
    (qstore : QueryParams → QueryResult) : Except String PageResult :=
  (allByParams meta key value o).map (fun ps =>
    let res := qstore ps
    ⟨refineItems res.Items o, buildPaginationKey meta res⟩)

/-- Schema capability: required attribute names, each with its
well-typedness check. -/
abbrev Schema := List (String × (Value → Bool))

/-- Validator Gate.  Modelled from the spec: every candidate is valid when no
schema is configured; with a schema, validity requires every required
attribute to be present and well-typed per the schema's rules. -/
def isValid (schema : Option Schema) (item : Item) : Bool :=
  match schema with
  | Option.none => true
  | some s =>
      s.all (fun r =>
        match alookup r.1 item with
        | some v => r.2 v
        | Option.none => false)

/-! ## General helper lemmas -/

theorem alookup_eq_none_of_all {α : Type} (k : String) (l : List (String × α))
    (h : ∀ e ∈ l, e.1 ≠ k) : alookup k l = Option.none := by
  induction l with
  | nil => rfl
  | cons e rest ih =>
      have he := h e (List.mem_cons_self e rest)
      simp only [alookup, if_neg he]
      exact ih (fun e' he' => h e' (List.mem_cons_of_mem e he'))

theorem alookup_cons_self {α : Type} (k : String) (v : α) (l : List (String × α)) :
    alookup k ((k, v) :: l) = some v := by
  simp [alookup]

/-! ## C5: the Attribute-Update Encoder -/

/-- C5: for every input map of attribute to new value, the Attribute-Update
Encoder maps every non-key attribute of the input to a PUT of the input value
and contains no entry for the hash-key or range-key attribute; key attributes
in the input are silently dropped. -/
theorem buildAttributeUpdates_spec (meta : EntityMeta) (ps : List (String × Value)) :
    (∀ a u, (a, u) ∈ buildAttributeUpdates meta ps ↔
      (a ≠ meta.hashKey ∧ some a ≠ meta.rangeKey ∧
        u.Action = UpdAction.PUT ∧ (a, u.Value) ∈ ps)) ∧
    alookup meta.hashKey (buildAttributeUpdates meta ps) = Option.none ∧
    (∀ rk, meta.rangeKey = some rk →
      alookup rk (buildAttributeUpdates meta ps) = Option.none) := by
  have hmem : ∀ a u, (a, u) ∈ buildAttributeUpdates meta ps ↔
      (a ≠ meta.hashKey ∧ some a ≠ meta.rangeKey ∧
        u.Action = UpdAction.PUT ∧ (a, u.Value) ∈ ps) := by
    intro a u
    constructor
    · intro h
      rcases List.mem_filterMap.mp h with ⟨e, he, hfe⟩
      by_cases hc : e.1 = meta.hashKey ∨ some e.1 = meta.rangeKey
      · simp [buildAttributeUpdates, hc] at hfe
      · push_neg at hc
        simp only [if_neg (by tauto : ¬(e.1 = meta.hashKey ∨ some e.1 = meta.rangeKey)),
          Option.some.injEq, Prod.mk.injEq] at hfe
        obtain ⟨ha, hu⟩ := hfe
        subst ha
        subst hu
        exact ⟨hc.1, hc.2, rfl, by simpa using he⟩
    · rintro ⟨h1, h2, h3, h4⟩
      obtain ⟨act, v⟩ := u
      change act = UpdAction.PUT at h3
      subst h3
      refine List.mem_filterMap.mpr ⟨(a, v), h4, ?_⟩
      have hc : ¬(a = meta.hashKey ∨ some a = meta.rangeKey) := by tauto
      simp [buildAttributeUpdates, if_neg hc]
  have hnames : ∀ e ∈ buildAttributeUpdates meta ps,
      e.1 ≠ meta.hashKey ∧ some e.1 ≠ meta.rangeKey := by
    intro e he
    have := (hmem e.1 e.2).mp (by simpa using he)
    exact ⟨this.1, this.2.1⟩
  refine ⟨hmem, ?_, ?_⟩
  · exact alookup_eq_none_of_all _ _ (fun e he => (hnames e he).1)
  · intro rk hrk
    refine alookup_eq_none_of_all _ _ (fun e he => ?_)
    intro hbad
    exact (hnames e he).2 (by rw [hbad, hrk])

/-- Witness of C5 at a concrete input: a map holding the hash key, the range
key and one plain attribute keeps only the plain attribute as a PUT. -/
theorem buildAttributeUpdates_spec_witness :
    (("x", AttrUpdate.mk UpdAction.PUT (Value.vS "b")) ∈
      buildAttributeUpdates ⟨"t", "hk", some "rk"⟩
        [("hk", Value.vS "a"), ("x", Value.vS "b"), ("rk", Value.vS "c")]) ∧
    alookup "hk" (buildAttributeUpdates ⟨"t", "hk", some "rk"⟩
        [("hk", Value.vS "a"), ("x", Value.vS "b"), ("rk", Value.vS "c")]) = Option.none ∧
    alookup "rk" (buildAttributeUpdates ⟨"t", "hk", some "rk"⟩
        [("hk", Value.vS "a"), ("x", Value.vS "b"), ("rk", Value.vS "c")]) = Option.none := by
  have h := buildAttributeUpdates_spec ⟨"t", "hk", some "rk"⟩
    [("hk", Value.vS "a"), ("x", Value.vS "b"), ("rk", Value.vS "c")]
  refine ⟨(h.1 "x" (AttrUpdate.mk UpdAction.PUT (Value.vS "b"))).mpr
    ⟨by decide, by decide, rfl, by simp⟩, h.2.1, h.2.2 "rk" rfl⟩

/-! ## C6: increment always encodes ADD -/

/-- C6: for every attribute name and every integer delta, including negative
ones, increment and incrementAll encode each given attribute as an ADD of the
delta, never as a PUT. -/
theorem increment_always_ADD (meta : EntityMeta) (attr : String) (n : Int)
    (h : Value) (r : Option Value) (deltas : List (String × Int)) :
    (increment meta attr n h r).AttributeUpdates =
      [(attr, AttrUpdate.mk UpdAction.ADD (Value.vN n))] ∧
    (∀ a u, (a, u) ∈ (increment meta attr n h r).AttributeUpdates →
      u.Action = UpdAction.ADD ∧ u.Action ≠ UpdAction.PUT) ∧
    (incrementAll meta h r deltas).AttributeUpdates =
      deltas.map (fun d => (d.1, AttrUpdate.mk UpdAction.ADD (Value.vN d.2))) ∧
    (∀ d ∈ deltas, (d.1, AttrUpdate.mk UpdAction.ADD (Value.vN d.2)) ∈
      (incrementAll meta h r deltas).AttributeUpdates) ∧
    (∀ a u, (a, u) ∈ (incrementAll meta h r deltas).AttributeUpdates →
      u.Action = UpdAction.ADD ∧ u.Action ≠ UpdAction.PUT) := by
  refine ⟨rfl, ?_, rfl, ?_, ?_⟩
  · intro a u hu
    simp only [increment, List.mem_singleton, Prod.mk.injEq] at hu
    rw [hu.2]
    exact ⟨rfl, fun hc => UpdAction.noConfusion hc⟩
  · intro d hd
    simp only [incrementAll, List.mem_map]
    exact ⟨d, hd, rfl⟩
  · intro a u hu
    simp only [incrementAll, List.mem_map] at hu
    obtain ⟨d, _, hd⟩ := hu
    have hu2 : u = AttrUpdate.mk UpdAction.ADD (Value.vN d.2) := by
      have h2 := congrArg Prod.snd hd
      simpa using h2.symm
    subst hu2
    exact ⟨rfl, fun hc => UpdAction.noConfusion hc⟩

/-- Witness of C6 at a concrete input: a negative delta still encodes as
ADD. -/
theorem increment_always_ADD_witness :
    (incrementAll ⟨"t", "hk", Option.none⟩ (Value.vS "h") Option.none
      [("attr1", 1), ("attr2", -2)]).AttributeUpdates =
      [("attr1", AttrUpdate.mk UpdAction.ADD (Value.vN 1)),
        ("attr2", AttrUpdate.mk UpdAction.ADD (Value.vN (-2)))] := by
  have h := increment_always_ADD ⟨"t", "hk", Option.none⟩ "someCount" 2 (Value.vS "h")
    Option.none [("attr1", 1), ("attr2", -2)]
  rw [h.2.2.1]
  rfl

/-! ## C8: invalid parameters fail before any store call -/

/-- C8: for every verb and every parameter map that does not identify a
target table, execute fails with an invalid-parameters error after zero
underlying store calls, hence before any store interaction and without any
retry. -/
theorem execute_invalid_params (sStore : Verb → ClientParams → List (String × Value))
    (bStore : BatchStore) (maxRetries : Nat) (v : Verb) (p : ClientParams)
    (h : identifiesTable v p = false) :
    execute sStore bStore maxRetries v p = (0, Except.error "Invalid params") := by
  simp [execute, h]

/-- Witness of C8 at a concrete input: a put with an empty parameter map is
rejected with zero store calls. -/
theorem execute_invalid_params_witness :
    execute (fun _ _ => []) (fun _ _ => BatchResult.mk [] []) 10 Verb.vput
      (ClientParams.mk Option.none []) = (0, Except.error "Invalid params") :=
  execute_invalid_params _ _ 10 Verb.vput (ClientParams.mk Option.none []) (by decide)

/-! ## C10: the key-condition template of allBy and countBy -/

/-- C10: the queries of allBy and countBy always use the fixed key-condition
template with the attribute name carried in the expression-name table and the
value in the expression-value table, never embedded literally in the
condition. -/
theorem keyCondition_template (meta : EntityMeta) (key : String) (value : Value)
    (o : Options) :
    (∀ ps, allByParams meta key value o = Except.ok ps →
      ps.KeyConditionExpression = "#hkey = :hvalue" ∧
      alookup "#hkey" ps.ExpressionAttributeNames = some key ∧
      alookup ":hvalue" ps.ExpressionAttributeValues = some value) ∧
    (countByParams meta key value).KeyConditionExpression = "#hkey = :hvalue" ∧
    alookup "#hkey" (countByParams meta key value).ExpressionAttributeNames = some key ∧
    alookup ":hvalue" (countByParams meta key value).ExpressionAttributeValues = some value := by
  refine ⟨?_, rfl, alookup_cons_self _ _ _, alookup_cons_self _ _ _⟩
  intro ps hps
  unfold allByParams at hps
  cases hbo : buildOptions o with
  | none =>
      simp only [hbo] at hps
      cases hpg : o.page with
      | none =>
          simp only [hpg, Except.ok.injEq] at hps
          subst hps
          exact ⟨rfl, alookup_cons_self _ _ _, alookup_cons_self _ _ _⟩
      | some tok =>
          simp only [hpg] at hps
          cases hk : lastEvaluatedKeyOf tok with
          | none => simp [hk] at hps
          | some k =>
              simp only [hk, Except.ok.injEq] at hps
              subst hps
              exact ⟨rfl, alookup_cons_self _ _ _, alookup_cons_self _ _ _⟩
  | some pr =>
      simp only [hbo] at hps
      cases hpg : o.page with
      | none =>
          simp only [hpg, Except.ok.injEq] at hps
          subst hps
          exact ⟨rfl, alookup_cons_self _ _ _, alookup_cons_self _ _ _⟩
      | some tok =>
          simp only [hpg] at hps
          cases hk : lastEvaluatedKeyOf tok with
          | none => simp [hk] at hps
          | some k =>
              simp only [hk, Except.ok.injEq] at hps
              subst hps
              exact ⟨rfl, alookup_cons_self _ _ _, alookup_cons_self _ _ _⟩

/-- Witness of C10 at a concrete input: a plain allBy call carries the fixed
template with the substitution tables. -/
theorem keyCondition_template_witness :
    ∃ ps, allByParams ⟨"tbl", "hk", Option.none⟩ "key" (Value.vS "value")
        Options.none = Except.ok ps ∧
      ps.KeyConditionExpression = "#hkey = :hvalue" ∧
      alookup "#hkey" ps.ExpressionAttributeNames = some "key" ∧
      alookup ":hvalue" ps.ExpressionAttributeValues = some (Value.vS "value") := by
  refine ⟨_, rfl, (keyCondition_template ⟨"tbl", "hk", Option.none⟩ "key"
    (Value.vS "value") Options.none).1 _ rfl⟩

/-! ## C7: the Item Refiner -/

theorem foldl_removeAttr (flds : List String) (item : Item) :
    flds.foldl removeAttr item = item.filter (fun e => !(memStr e.1 flds)) := by
  induction flds generalizing item with
  | nil =>
      simp only [List.foldl_nil]
      have : ∀ e ∈ item, (!(memStr (Prod.fst e) [])) = true := by
        intro e _
        simp [memStr]
      rw [List.filter_eq_self.mpr this]
  | cons f fs ih =>
      simp only [List.foldl_cons]
      rw [ih (removeAttr item f)]
      unfold removeAttr
      rw [List.filter_filter]
      apply List.filter_congr
      intro e _
      have hcons : memStr e.1 (f :: fs) = if f = e.1 then true else memStr e.1 fs := rfl
      rw [hcons]
      by_cases h : f = e.1
      · rw [if_pos h]
        have hd : (decide (e.1 ≠ f)) = false := decide_eq_false (not_not_intro h.symm)
        rw [hd, Bool.and_false]
        rfl
      · rw [if_neg h]
        have hd : (decide (e.1 ≠ f)) = true := decide_eq_true (fun hh => h hh.symm)
        rw [hd, Bool.and_true]

/-- C7: with include_fields false and a nonempty fields list, the Item
Refiner maps each item independently to the item with every listed attribute
removed — removal of an absent attribute is a no-op, order and unlisted
attributes are preserved; with include_fields true it passes items through
unchanged. -/
theorem refineItems_spec (items : List Item) (o : Options) :
    (o.include_fields = some true →
      refineItems items o = items ∧ ∀ it, refineItem it o = it) ∧
    (∀ f, o.include_fields = some false → o.fields = some f → f ≠ "" →
      refineItems items o = items.map (fun it => refineItem it o) ∧
      (∀ it, refineItem it o = it.filter (fun e => !(memStr e.1 (splitFields f)))) ∧
      (∀ it e, e ∈ refineItem it o ↔
        (e ∈ it ∧ memStr e.1 (splitFields f) = false))) := by
  constructor
  · intro htrue
    refine ⟨?_, fun it => ?_⟩
    · simp [refineItems, htrue]
    · simp [refineItem, htrue]
  · intro f hfalse hf hne
    have hitem : ∀ it : Item,
        refineItem it o = it.filter (fun e => !(memStr e.1 (splitFields f))) := by
      intro it
      simp only [refineItem, hfalse, hf]
      rw [if_neg hne]
      exact foldl_removeAttr _ _
    refine ⟨?_, hitem, ?_⟩
    · simp only [refineItems, hfalse, hf]
      rw [if_neg hne]
    · intro it e
      rw [hitem it]
      rw [List.mem_filter]
      simp

/-- Witness of C7 at a concrete input: excluding field1 and field2 keeps only
field3, and a pass-through under include_fields true. -/
theorem refineItems_spec_witness :
    refineItem [("field1", Value.vS "x"), ("field2", Value.vS "y"), ("field3", Value.vS "z")]
        (Options.mk (some "field1,field2") (some false) Option.none) =
      [("field3", Value.vS "z")] ∧
    refineItems [[("a", Value.vS "x")]]
        (Options.mk (some "a") (some true) Option.none) = [[("a", Value.vS "x")]] := by
  constructor
  · rw [((refineItems_spec [] (Options.mk (some "field1,field2") (some false)
      Option.none)).2 "field1,field2" rfl rfl (by decide)).2.1
      [("field1", Value.vS "x"), ("field2", Value.vS "y"), ("field3", Value.vS "z")]]
    rfl
  · exact ((refineItems_spec [[("a", Value.vS "x")]]
      (Options.mk (some "a") (some true) Option.none)).1 rfl).1

/-! ## C9: the Validator Gate -/

/-- C9: isValid accepts every candidate when no schema is configured; with a
schema it rejects every candidate missing a schema-required attribute or
failing its check, and accepts when all required attributes are present and
well-typed. -/
theorem isValid_spec :
    (∀ item, isValid Option.none item = true) ∧
    (∀ s item req, req ∈ s → alookup req.1 item = Option.none →
      isValid (some s) item = false) ∧
    (∀ s item req v, req ∈ s → alookup req.1 item = some v → req.2 v = false →
      isValid (some s) item = false) ∧
    (∀ s item, (∀ req ∈ s, ∃ v, alookup req.1 item = some v ∧ req.2 v = true) →
      isValid (some s) item = true) := by
  refine ⟨fun _ => rfl, ?_, ?_, ?_⟩
  · intro s item req hreq hnone
    unfold isValid
    rw [List.all_eq_false]
    exact ⟨req, hreq, by simp [hnone]⟩
  · intro s item req v hreq hsome hfail
    unfold isValid
    rw [List.all_eq_false]
    exact ⟨req, hreq, by simp [hsome, hfail]⟩
  · intro s item hall
    unfold isValid
    rw [List.all_eq_true]
    intro req hreq
    obtain ⟨v, hv, hchk⟩ := hall req hreq
    simp [hv, hchk]

/-- Witness of C9 at concrete inputs mirroring the campaign records: no
schema accepts anything; a schema requiring a nonempty listIds rejects a
record missing listIds and one with an empty listIds, and accepts a complete
record. -/
theorem isValid_spec_witness :
    isValid Option.none [("some", Value.vS "object")] = true ∧
    isValid (some [("listIds", fun v => match v with
        | Value.vL l => !l.isEmpty
        | _ => false)])
      [("userId", Value.vS "user-id"), ("body", Value.vS "a-body")] = false ∧
    isValid (some [("listIds", fun v => match v with
        | Value.vL l => !l.isEmpty
        | _ => false)])
      [("userId", Value.vS "user-id"), ("listIds", Value.vL [])] = false ∧
    isValid (some [("listIds", fun v => match v with
        | Value.vL l => !l.isEmpty
        | _ => false)])
      [("userId", Value.vS "user-id"), ("listIds", Value.vL ["a-list"])] = true := by
  refine ⟨isValid_spec.1 _, ?_, ?_, ?_⟩
  · exact isValid_spec.2.1 _ _ ("listIds", fun v => match v with
      | Value.vL l => !l.isEmpty
      | _ => false) (List.mem_singleton.mpr rfl) rfl
  · exact isValid_spec.2.2.1 _ _ ("listIds", fun v => match v with
      | Value.vL l => !l.isEmpty
      | _ => false) (Value.vL []) (List.mem_singleton.mpr rfl) rfl rfl
  · refine isValid_spec.2.2.2 _ _ ?_
    intro req hreq
    rw [List.mem_singleton.mp hreq]
    exact ⟨Value.vL ["a-list"], rfl, rfl⟩

/-! ## C1 and C2: the batch-write retry loop -/

theorem getLastD_irrel {α : Type} (l : List α) (d d' : α) (h : l ≠ []) :
    l.getLastD d = l.getLastD d' := by
  cases l with
  | nil => exact absurd rfl h
  | cons b t => rw [List.getLastD_cons, List.getLastD_cons]

theorem batchAttempts_length (store : BatchStore)
    (h : ∀ a r, (store a r).UnprocessedItems ≠ []) :
    ∀ fuel a req, (batchAttempts store a req fuel).length = fuel + 1 := by
  intro fuel
  induction fuel with
  | zero => intro a req; rfl
  | succ n ih =>
      intro a req
      have hcond : ¬ ((store a req).UnprocessedItems.isEmpty = true) := by
        simp only [List.isEmpty_iff]
        exact h a req
      unfold batchAttempts
      rw [if_neg hcond]
      simp [ih (a + 1)]

theorem batchAttempts_getLastD (store : BatchStore)
    (h : ∀ a r, (store a r).UnprocessedItems ≠ []) :
    ∀ fuel a req, (batchAttempts store a req fuel).getLastD default =
      (lastSubmitted store a req fuel,
        store (a + fuel) (lastSubmitted store a req fuel)) := by
  intro fuel
  induction fuel with
  | zero => intro a req; simp [batchAttempts, lastSubmitted]
  | succ n ih =>
      intro a req
      have hcond : ¬ ((store a req).UnprocessedItems.isEmpty = true) := by
        simp only [List.isEmpty_iff]
        exact h a req
      unfold batchAttempts lastSubmitted
      rw [if_neg hcond, if_neg hcond, List.getLastD_cons]
      have hlen := batchAttempts_length store h n (a + 1) (store a req).UnprocessedItems
      have hne2 : batchAttempts store (a + 1) (store a req).UnprocessedItems n ≠ [] := by
        intro hempty
        rw [hempty] at hlen
        simp at hlen
      rw [getLastD_irrel _ (req, store a req) default hne2, ih (a + 1)]
      have harith : a + 1 + n = a + (n + 1) := by omega
      rw [harith]

theorem batchAttempts_head (store : BatchStore) (fuel : Nat) (a : Nat)
    (req : RequestItems) : ((batchAttempts store a req fuel).getD 0 default).1 = req := by
  cases fuel with
  | zero => rfl
  | succ n =>
      unfold batchAttempts
      by_cases hcond : (store a req).UnprocessedItems.isEmpty = true
      · rw [if_pos hcond]
        rfl
      · rw [if_neg hcond]
        rfl

theorem batchAttempts_chain (store : BatchStore) :
    ∀ fuel a req i, i + 1 < (batchAttempts store a req fuel).length →
      ((batchAttempts store a req fuel).getD (i + 1) default).1 =
        ((batchAttempts store a req fuel).getD i default).2.UnprocessedItems := by
  intro fuel
  induction fuel with
  | zero =>
      intro a req i hi
      simp [batchAttempts] at hi
  | succ n ih =>
      intro a req i hi
      by_cases hcond : (store a req).UnprocessedItems.isEmpty = true
      · unfold batchAttempts at hi
        rw [if_pos hcond] at hi
        simp at hi
      · unfold batchAttempts at hi ⊢
        rw [if_neg hcond] at hi ⊢
        cases i with
        | zero =>
            simp only [List.getD_cons_succ, List.getD_cons_zero]
            exact batchAttempts_head store n (a + 1) _
        | succ j =>
            simp only [List.getD_cons_succ]
            apply ih
            simp only [List.length_cons] at hi
            omega

/-- C1: when every batch-write response reports at least one unprocessed
record, the Retrying Client performs exactly maxRetries retries after the
first attempt — maxRetries plus one store calls in total — and returns the
last attempt's response, its leftover unprocessed records included, as a
success rather than an error. -/
theorem batchWrite_retry_exhaustion
    (sStore : Verb → ClientParams → List (String × Value)) (bStore : BatchStore)
    (maxRetries : Nat) (p : ClientParams) (hp : p.RequestItems ≠ [])
    (hu : ∀ a r, (bStore a r).UnprocessedItems ≠ []) :
    (execute sStore bStore maxRetries Verb.vbatchWrite p).1 = maxRetries + 1 ∧
    (execute sStore bStore maxRetries Verb.vbatchWrite p).2 =
      Except.ok (ExecOut.batch (bStore maxRetries
        (lastSubmitted bStore 0 p.RequestItems maxRetries))) ∧
    (bStore maxRetries
      (lastSubmitted bStore 0 p.RequestItems maxRetries)).UnprocessedItems ≠ [] := by
  have hid : identifiesTable Verb.vbatchWrite p = true := by
    simp [identifiesTable, List.isEmpty_iff, hp]
  unfold execute
  rw [if_pos hid]
  refine ⟨?_, ?_, hu _ _⟩
  · exact batchAttempts_length bStore hu maxRetries 0 p.RequestItems
  · rw [batchAttempts_getLastD bStore hu maxRetries 0 p.RequestItems]
    rw [Nat.zero_add]

/-- Witness of C1 at a concrete input: a store that always leaves one record
unprocessed makes a batch write with maxRetries two perform three calls and
return the leftover as a success. -/
theorem batchWrite_retry_exhaustion_witness :
    (execute (fun _ _ => []) (fun _ _ => BatchResult.mk []
        [("retriable-table", [[("id", Value.vS "some-id")]])]) 2 Verb.vbatchWrite
      (ClientParams.mk Option.none [("retriable-table", [[("id", Value.vS "first")]])])).1 = 3 ∧
    (execute (fun _ _ => []) (fun _ _ => BatchResult.mk []
        [("retriable-table", [[("id", Value.vS "some-id")]])]) 2 Verb.vbatchWrite
      (ClientParams.mk Option.none [("retriable-table", [[("id", Value.vS "first")]])])).2 =
      Except.ok (ExecOut.batch (BatchResult.mk []
        [("retriable-table", [[("id", Value.vS "some-id")]])])) := by
  have h := batchWrite_retry_exhaustion (fun _ _ => []) (fun _ _ => BatchResult.mk []
      [("retriable-table", [[("id", Value.vS "some-id")]])]) 2
    (ClientParams.mk Option.none [("retriable-table", [[("id", Value.vS "first")]])])
    (by decide) (fun _ _ => List.cons_ne_nil _ _)
  exact ⟨h.1, h.2.1⟩

/-- C2: a batch write whose first response reports no unprocessed records
completes with exactly one store call and returns the store's response
unchanged; and whenever a response does report unprocessed records, the next
submission's request items are exactly those unprocessed records. -/
theorem batchWrite_single_and_resubmit
    (sStore : Verb → ClientParams → List (String × Value)) (bStore : BatchStore)
    (maxRetries : Nat) (p : ClientParams) (hp : p.RequestItems ≠ []) :
    ((bStore 0 p.RequestItems).UnprocessedItems = [] →
      execute sStore bStore maxRetries Verb.vbatchWrite p =
        (1, Except.ok (ExecOut.batch (bStore 0 p.RequestItems)))) ∧
    (∀ i, i + 1 < (batchAttempts bStore 0 p.RequestItems maxRetries).length →
      ((batchAttempts bStore 0 p.RequestItems maxRetries).getD (i + 1) default).1 =
        ((batchAttempts bStore 0 p.RequestItems maxRetries).getD i default).2.UnprocessedItems) := by
  have hid : identifiesTable Verb.vbatchWrite p = true := by
    simp [identifiesTable, List.isEmpty_iff, hp]
  constructor
  · intro hempty
    have hatts : batchAttempts bStore 0 p.RequestItems maxRetries =
        [(p.RequestItems, bStore 0 p.RequestItems)] := by
      cases maxRetries with
      | zero => rfl
      | succ n =>
          unfold batchAttempts
          rw [if_pos (by simp [List.isEmpty_iff, hempty])]
    unfold execute
    rw [if_pos hid]
    rw [hatts]
    rfl
  · exact batchAttempts_chain bStore maxRetries 0 p.RequestItems

/-- Witness of C2 at concrete inputs: a clean response finishes in one call
returning it unchanged, and with a store leaving records unprocessed the
second submission carries exactly the first response's unprocessed records. -/
theorem batchWrite_single_and_resubmit_witness :
    execute (fun _ _ => []) (fun _ _ => BatchResult.mk [] []) 10 Verb.vbatchWrite
      (ClientParams.mk Option.none [("valid-table", [[("id", Value.vS "k")]])]) =
      (1, Except.ok (ExecOut.batch (BatchResult.mk [] []))) ∧
    ((batchAttempts (fun _ _ => BatchResult.mk []
        [("retriable-table", [[("id", Value.vS "some-id")]])]) 0
      [("retriable-table", [[("id", Value.vS "first")]])] 2).getD 1 default).1 =
      ((batchAttempts (fun _ _ => BatchResult.mk []
          [("retriable-table", [[("id", Value.vS "some-id")]])]) 0
        [("retriable-table", [[("id", Value.vS "first")]])] 2).getD 0 default).2.UnprocessedItems := by
  constructor
  · exact (batchWrite_single_and_resubmit (fun _ _ => []) (fun _ _ => BatchResult.mk [] [])
      10 (ClientParams.mk Option.none [("valid-table", [[("id", Value.vS "k")]])])
      (by decide)).1 rfl
  · exact (batchWrite_single_and_resubmit (fun _ _ => []) (fun _ _ => BatchResult.mk []
        [("retriable-table", [[("id", Value.vS "some-id")]])]) 2
      (ClientParams.mk Option.none [("retriable-table", [[("id", Value.vS "first")]])])
      (by decide)).2 0 (by decide)

/-! ## C4: the next-page cursor comes from the last returned item -/

theorem toNat_ofNat_lt {n : Nat} (h : n < 55296) : (Char.ofNat n).toNat = n := by
  have hv : n.isValidChar := Or.inl h
  rw [Char.ofNat, dif_pos hv]
  rfl

theorem urlSafe_b64char (n : Nat) : urlSafeChar (b64char n) = true := by
  unfold b64char urlSafeChar
  by_cases h1 : n < 26
  · rw [if_pos h1, decide_eq_true_iff]
    have ht : (Char.ofNat (65 + n)).toNat = 65 + n := toNat_ofNat_lt (by omega)
    exact Or.inl (by omega)
  · rw [if_neg h1]
    by_cases h2 : n < 52
    · rw [if_pos h2, decide_eq_true_iff]
      have ht : (Char.ofNat (97 + (n - 26))).toNat = 97 + (n - 26) :=
        toNat_ofNat_lt (by omega)
      exact Or.inr (Or.inl (by omega))
    · rw [if_neg h2]
      by_cases h3 : n < 62
      · rw [if_pos h3, decide_eq_true_iff]
        have ht : (Char.ofNat (48 + (n - 52))).toNat = 48 + (n - 52) :=
          toNat_ofNat_lt (by omega)
        exact Or.inr (Or.inr (Or.inl (by omega)))
      · rw [if_neg h3]
        by_cases h4 : n = 62
        · rw [if_pos h4, decide_eq_true_iff]
          exact Or.inr (Or.inr (Or.inr (Or.inl rfl)))
        · rw [if_neg h4, decide_eq_true_iff]
          exact Or.inr (Or.inr (Or.inr (Or.inr rfl)))

theorem b64encode_chars : ∀ bs : List Nat, ∀ c ∈ b64encode bs, urlSafeChar c = true
  | [] => by simp [b64encode]
  | [b1] => by
      intro c hc
      simp only [b64encode, List.mem_cons, List.not_mem_nil, or_false] at hc
      rcases hc with rfl | rfl <;> exact urlSafe_b64char _
  | [b1, b2] => by
      intro c hc
      simp only [b64encode, List.mem_cons, List.not_mem_nil, or_false] at hc
      rcases hc with rfl | rfl | rfl <;> exact urlSafe_b64char _
  | [b1, b2, b3] => by
      intro c hc
      simp only [b64encode, List.mem_cons, List.not_mem_nil, or_false] at hc
      rcases hc with rfl | rfl | rfl | rfl <;> exact urlSafe_b64char _
  | b1 :: b2 :: b3 :: b4 :: rest => by
      intro c hc
      simp only [b64encode, List.mem_cons] at hc
      rcases hc with rfl | rfl | rfl | rfl | hc
      · exact urlSafe_b64char _
      · exact urlSafe_b64char _
      · exact urlSafe_b64char _
      · exact urlSafe_b64char _
      · exact b64encode_chars (b4 :: rest) c hc

/-- C4: whenever the store's query result carries a continuation marker, the
page result's cursor is the encoding of the key map built from the hash-key
and range-key values of the last item actually returned — not of the store's
own marker — and every character of the cursor is URL-safe. -/
theorem allBy_nextPage_from_last_item (meta : EntityMeta) (key : String)
    (value : Value) (o : Options) (qstore : QueryParams → QueryResult)
    (ps : QueryParams) (hps : allByParams meta key value o = Except.ok ps)
    (lek : KeyMap) (hlek : (qstore ps).LastEvaluatedKey = some lek)
    (lastIt : Item) (hlast : (qstore ps).Items.getLast? = some lastIt) :
    allBy meta key value o qstore = Except.ok
      (PageResult.mk (refineItems (qstore ps).Items o)
        (some (nextPage (buildItemKey meta lastIt)))) ∧
    (∀ c ∈ (nextPage (buildItemKey meta lastIt)).data, urlSafeChar c = true) := by
  constructor
  · unfold allBy
    rw [hps]
    simp only [Except.map]
    congr 1
    unfold buildPaginationKey
    rw [hlek, hlast]
  · intro c hc
    exact b64encode_chars _ c hc

/-- Witness of C4 at a concrete input mirroring the forward-pagination test:
the cursor is built from the last returned item's key values, every character
URL-safe. -/
theorem allBy_nextPage_from_last_item_witness :
    allBy (EntityMeta.mk "t" "myHash" (some "myRange")) "key" (Value.vS "value")
        Options.none (fun _ => QueryResult.mk
          [[("myHash", Value.vS "1"), ("myRange", Value.vS "1")],
            [("myHash", Value.vS "1"), ("myRange", Value.vS "2")]]
          (some [("myHash", Value.vS "1"), ("myRange", Value.vS "2")])) =
      Except.ok (PageResult.mk
        [[("myHash", Value.vS "1"), ("myRange", Value.vS "1")],
          [("myHash", Value.vS "1"), ("myRange", Value.vS "2")]]
        (some (nextPage [("myHash", Value.vS "1"), ("myRange", Value.vS "2")]))) ∧
    (nextPage [("myHash", Value.vS "1"), ("myRange", Value.vS "2")]).data.all
      urlSafeChar = true := by
  have h := allBy_nextPage_from_last_item (EntityMeta.mk "t" "myHash" (some "myRange"))
    "key" (Value.vS "value") Options.none
    (fun _ => QueryResult.mk
      [[("myHash", Value.vS "1"), ("myRange", Value.vS "1")],
        [("myHash", Value.vS "1"), ("myRange", Value.vS "2")]]
      (some [("myHash", Value.vS "1"), ("myRange", Value.vS "2")]))
    _ rfl [("myHash", Value.vS "1"), ("myRange", Value.vS "2")] rfl
    [("myHash", Value.vS "1"), ("myRange", Value.vS "2")] rfl
  exact ⟨h.1, List.all_eq_true.mpr (h.2)⟩

/-! ## C3: the pagination codec round trip.  Digit-level lemmas first. -/

theorem digitVal_digitChar {d : Nat} (h : d < 10) : digitVal (digitChar d) = d := by
  unfold digitVal digitChar
  rw [toNat_ofNat_lt (by omega)]
  omega

theorem isDigitC_digitChar {d : Nat} (h : d < 10) : isDigitC (digitChar d) = true := by
  unfold isDigitC digitChar
  rw [decide_eq_true_iff, toNat_ofNat_lt (by omega)]
  omega

theorem natToChars_ne_nil (n : Nat) : natToChars n ≠ [] := by
  rw [natToChars.eq_def]
  by_cases h : n < 10
  · rw [if_pos h]
    exact List.cons_ne_nil _ _
  · rw [if_neg h]
    intro hcontra
    exact List.cons_ne_nil _ _ (List.append_eq_nil.mp hcontra).2

theorem natToChars_digits (n : Nat) : ∀ c ∈ natToChars n, isDigitC c = true := by
  induction n using Nat.strong_induction_on with
  | _ n ih =>
      intro c hc
      rw [natToChars.eq_def] at hc
      by_cases h : n < 10
      · rw [if_pos h] at hc
        rw [List.mem_singleton.mp hc]
        exact isDigitC_digitChar h
      · rw [if_neg h] at hc
        rcases List.mem_append.mp hc with h1 | h2
        · exact ih (n / 10) (Nat.div_lt_self (by omega) (by omega)) c h1
        · rw [List.mem_singleton.mp h2]
          exact isDigitC_digitChar (Nat.mod_lt _ (by omega))

theorem digitsVal_append (acc : Nat) (xs ys : List Char) :
    digitsVal acc (xs ++ ys) = digitsVal (digitsVal acc xs) ys := by
  induction xs generalizing acc with
  | nil => rfl
  | cons c rest ih =>
      rw [List.cons_append]
      have h1 : digitsVal acc (c :: (rest ++ ys)) =
          digitsVal (acc * 10 + digitVal c) (rest ++ ys) := rfl
      have h2 : digitsVal acc (c :: rest) = digitsVal (acc * 10 + digitVal c) rest := rfl
      rw [h1, h2, ih]

theorem digitsVal_natToChars (n : Nat) :
    ∀ acc, digitsVal acc (natToChars n) = acc * 10 ^ (natToChars n).length + n := by
  induction n using Nat.strong_induction_on with
  | _ n ih =>
      intro acc
      rw [natToChars.eq_def]
      by_cases h : n < 10
      · rw [if_pos h]
        have h3 : digitsVal acc [digitChar n] = acc * 10 + digitVal (digitChar n) := rfl
        rw [h3, digitVal_digitChar h]
        simp
      · rw [if_neg h]
        rw [digitsVal_append, ih (n / 10) (Nat.div_lt_self (by omega) (by omega)) acc]
        have h3 : ∀ m : Nat, digitsVal m [digitChar (n % 10)] =
            m * 10 + digitVal (digitChar (n % 10)) := fun m => rfl
        rw [h3, digitVal_digitChar (Nat.mod_lt _ (by omega))]
        simp only [List.length_append, List.length_singleton]
        rw [pow_succ]
        have hmul : (acc * 10 ^ (natToChars (n / 10)).length + n / 10) * 10 + n % 10 =
            acc * (10 ^ (natToChars (n / 10)).length * 10) + (n / 10 * 10 + n % 10) := by
          ring
        rw [hmul]
        have h10 : n / 10 * 10 + n % 10 = n := by omega
        rw [h10]

/-- Absence of a leading digit: the continuation after a serialized number
never starts with another digit. -/
def noLeadDigit : List Char → Prop
  | [] => True
  | c :: _ => isDigitC c = false

theorem takeDigits_no_lead (rest : List Char) (h : noLeadDigit rest) :
    takeDigits rest = ([], rest) := by
  cases rest with
  | nil => rfl
  | cons c t =>
      unfold takeDigits
      rw [h]
      simp

theorem takeDigits_append (ds rest : List Char) (hds : ∀ c ∈ ds, isDigitC c = true)
    (hrest : noLeadDigit rest) : takeDigits (ds ++ rest) = (ds, rest) := by
  induction ds with
  | nil => exact takeDigits_no_lead rest hrest
  | cons c t ih =>
      simp only [List.cons_append]
      unfold takeDigits
      rw [hds c (List.mem_cons_self c t)]
      simp only [if_pos]
      rw [ih (fun c' hc' => hds c' (List.mem_cons_of_mem c hc'))]

theorem parseNum_intToChars (i : Int) (rest : List Char) (hrest : noLeadDigit rest) :
    parseNum (intToChars i ++ rest) = some (Value.vN i, rest) := by
  unfold intToChars
  by_cases hneg : i < 0
  · rw [if_pos hneg]
    simp only [List.cons_append, parseNum, if_pos]
    rw [takeDigits_append _ _ (natToChars_digits i.natAbs) hrest]
    have hemp : (natToChars i.natAbs).isEmpty = false := by
      simp [List.isEmpty_iff, natToChars_ne_nil i.natAbs]
    simp only [hemp, Bool.false_eq_true, if_false]
    have hval : digitsVal 0 (natToChars i.natAbs) = i.natAbs := by
      have := digitsVal_natToChars i.natAbs 0
      simpa using this
    rw [hval]
    have hcast : -(i.natAbs : Int) = i := by omega
    rw [hcast]
  · rw [if_neg hneg]
    obtain ⟨c, cs, hcs⟩ : ∃ c cs, natToChars i.toNat = c :: cs := by
      cases hn : natToChars i.toNat with
      | nil => exact absurd hn (natToChars_ne_nil _)
      | cons c cs => exact ⟨c, cs, rfl⟩
    have hdig : isDigitC c = true := by
      apply natToChars_digits i.toNat
      rw [hcs]
      exact List.mem_cons_self c cs
    have hnotminus : ¬ (c = '-') := by
      intro hcontra
      rw [hcontra] at hdig
      simp [isDigitC] at hdig
    have hall : ∀ c' ∈ c :: cs, isDigitC c' = true := by
      rw [← hcs]
      exact natToChars_digits i.toNat
    have htake : takeDigits (c :: (cs ++ rest)) = (c :: cs, rest) := by
      have h0 := takeDigits_append (c :: cs) rest hall hrest
      simpa using h0
    rw [hcs]
    simp only [List.cons_append, parseNum, if_neg hnotminus]
    rw [htake]
    simp only [List.isEmpty_cons, Bool.false_eq_true, if_false]
    have hval : digitsVal 0 (c :: cs) = i.toNat := by
      rw [← hcs]
      have := digitsVal_natToChars i.toNat 0
      simpa using this
    rw [hval]
    have hcast : (i.toNat : Int) = i := by omega
    rw [hcast]

theorem stringMk_data (s : String) : String.mk s.data = s := rfl

theorem parseStringBody_escape (s : List Char) (rest : List Char) :
    parseStringBody (escapeChars s ++ (quoteC :: rest)) = some (s, rest) := by
  induction s with
  | nil =>
      rw [escapeChars, List.nil_append, parseStringBody.eq_def]
      simp
  | cons c cs ih =>
      by_cases hc : c = quoteC ∨ c = backslashC
      · simp only [escapeChars, if_pos hc, List.cons_append, List.nil_append]
        rw [parseStringBody.eq_def]
        have h1 : ¬ (backslashC = quoteC) := by decide
        simp only [if_neg h1, if_pos rfl, if_pos hc, ih]
        simp
      · have hc1 : ¬ (c = quoteC) := fun h => hc (Or.inl h)
        have hc2 : ¬ (c = backslashC) := fun h => hc (Or.inr h)
        simp only [escapeChars, if_neg hc, List.cons_append, List.nil_append]
        rw [parseStringBody.eq_def]
        simp only [if_neg hc1, if_neg hc2, ih]

theorem parseScalar_serialize (v : Value) (hv : scalarValue v = true) (rest : List Char)
    (hrest : noLeadDigit rest) :
    parseScalar (serializeScalar v ++ rest) = some (v, rest) := by
  cases v with
  | vS s =>
      show parseScalar ((quoteC :: (escapeChars s.data ++ [quoteC])) ++ rest) = _
      rw [List.cons_append, List.append_assoc, List.singleton_append]
      rw [parseScalar.eq_def]
      simp only [if_pos rfl]
      rw [parseStringBody_escape]
      simp [stringMk_data]
  | vN n =>
      show parseScalar (intToChars n ++ rest) = _
      obtain ⟨c, t, hct, hcq⟩ : ∃ c t, intToChars n ++ rest = c :: t ∧ ¬(c = quoteC) := by
        unfold intToChars
        by_cases hneg : n < 0
        · rw [if_pos hneg, List.cons_append]
          exact ⟨'-', _, rfl, by decide⟩
        · rw [if_neg hneg]
          obtain ⟨c, cs, hcs⟩ : ∃ c cs, natToChars n.toNat = c :: cs := by
            cases hn : natToChars n.toNat with
            | nil => exact absurd hn (natToChars_ne_nil _)
            | cons c cs => exact ⟨c, cs, rfl⟩
          rw [hcs, List.cons_append]
          refine ⟨c, _, rfl, ?_⟩
          have hdig : isDigitC c = true := by
            apply natToChars_digits n.toNat
            rw [hcs]
            exact List.mem_cons_self c cs
          intro hq
          rw [hq] at hdig
          simp [isDigitC, quoteC] at hdig
      rw [hct, parseScalar.eq_def]
      simp only [if_neg hcq]
      rw [← hct]
      exact parseNum_intToChars n rest hrest
  | vB b => simp [scalarValue] at hv
  | vL l => simp [scalarValue] at hv

theorem parseEntriesAux_entry (f : Nat) (e : String × Value) (hv : scalarValue e.2 = true)
    (c2 : Char) (more : List Char) (hdig : isDigitC c2 = false) :
    parseEntriesAux (f + 1) (entryChars e ++ (c2 :: more)) =
      (if c2 = ',' then
        match parseEntriesAux f more with
        | some (es, r5) => some (e :: es, r5)
        | Option.none => Option.none
      else if c2 = rbraceC then some ([e], more) else Option.none) := by
  have hre : entryChars e ++ (c2 :: more) =
      quoteC :: (escapeChars e.1.data ++ (quoteC ::
        (':' :: (serializeScalar e.2 ++ (c2 :: more))))) := by
    simp [entryChars, serializeStr, List.append_assoc]
  rw [hre, parseEntriesAux.eq_def]
  simp only [if_pos rfl]
  rw [parseStringBody_escape]
  simp only []
  rw [parseScalar_serialize e.2 hv (c2 :: more) hdig]
  simp only [stringMk_data]
  rfl

theorem parseEntries_serialize (k : KeyMap) : ∀ fuel : Nat, k ≠ [] →
    (∀ e ∈ k, scalarValue e.2 = true) → k.length ≤ fuel → ∀ tail : List Char,
    parseEntriesAux fuel (entriesChars k ++ (rbraceC :: tail)) = some (k, tail) := by
  induction k with
  | nil => intro fuel h; exact absurd rfl h
  | cons e es ih =>
      intro fuel _ hv hlen tail
      cases fuel with
      | zero => simp at hlen
      | succ f =>
          cases es with
          | nil =>
              have h1 : entriesChars [e] = entryChars e := rfl
              rw [h1, parseEntriesAux_entry f e (hv e (List.mem_cons_self e []))
                rbraceC tail (by decide)]
              rw [if_neg (by decide : ¬(rbraceC = ',')), if_pos rfl]
          | cons e2 es2 =>
              have h1 : entriesChars (e :: e2 :: es2) =
                  entryChars e ++ ',' :: entriesChars (e2 :: es2) := rfl
              rw [h1, List.append_assoc, List.cons_append]
              rw [parseEntriesAux_entry f e (hv e (List.mem_cons_self e (e2 :: es2)))
                ',' (entriesChars (e2 :: es2) ++ (rbraceC :: tail)) (by decide)]
              rw [if_pos rfl]
              rw [ih f (List.cons_ne_nil e2 es2)
                (fun e' he' => hv e' (List.mem_cons_of_mem e he'))
                (by simp at hlen ⊢; omega) tail]

theorem length_le_entriesChars (k : KeyMap) : k.length ≤ (entriesChars k).length := by
  induction k with
  | nil => simp [entriesChars]
  | cons e es ih =>
      cases es with
      | nil =>
          have h1 : entriesChars [e] = entryChars e := rfl
          rw [h1]
          have : entryChars e = quoteC :: ((escapeChars e.1.data ++ [quoteC]) ++
              ':' :: serializeScalar e.2) := by
            simp [entryChars, serializeStr]
          rw [this]
          simp
      | cons e2 es2 =>
          have h1 : entriesChars (e :: e2 :: es2) =
              entryChars e ++ ',' :: entriesChars (e2 :: es2) := rfl
          rw [h1]
          simp only [List.length_cons] at ih
          simp only [List.length_cons, List.length_append]
          omega

theorem entriesChars_cons_head (e : String × Value) (es : List (String × Value)) :
    ∃ X, entriesChars (e :: es) = quoteC :: X := by
  cases es with
  | nil =>
      refine ⟨(escapeChars e.1.data ++ [quoteC]) ++ ':' :: serializeScalar e.2, ?_⟩
      simp [entriesChars, entryChars, serializeStr]
  | cons e2 es2 =>
      refine ⟨((escapeChars e.1.data ++ [quoteC]) ++ ':' :: serializeScalar e.2) ++
        ',' :: entriesChars (e2 :: es2), ?_⟩
      have h1 : entriesChars (e :: e2 :: es2) =
          entryChars e ++ ',' :: entriesChars (e2 :: es2) := rfl
      rw [h1]
      simp [entryChars, serializeStr]

theorem parseKeyMap_serialize (k : KeyMap) (hv : ∀ e ∈ k, scalarValue e.2 = true) :
    parseKeyMap (serializeKeyMap k) = some k := by
  cases k with
  | nil => rfl
  | cons e es =>
      obtain ⟨X, hX⟩ := entriesChars_cons_head e es
      show parseKeyMap (lbraceC :: (entriesChars (e :: es) ++ [rbraceC])) = _
      rw [parseKeyMap.eq_def]
      simp only [if_pos rfl]
      rw [hX, List.cons_append]
      have hq : ¬ (quoteC = rbraceC) := by decide
      simp only [if_neg hq]
      rw [← List.cons_append, ← hX]
      have hfuel : (e :: es).length ≤
          (lbraceC :: (entriesChars (e :: es) ++ [rbraceC])).length := by
        have hle := length_le_entriesChars (e :: es)
        simp only [List.length_cons] at hle
        simp only [List.length_cons, List.length_append]
        omega
      have hmain := parseEntries_serialize (e :: es)
        ((lbraceC :: (entriesChars (e :: es) ++ [rbraceC])).length)
        (List.cons_ne_nil e es) hv hfuel []
      have hshape : entriesChars (e :: es) ++ (rbraceC :: ([] : List Char)) =
          entriesChars (e :: es) ++ [rbraceC] := rfl
      rw [hshape] at hmain
      rw [hmain]
      rfl

theorem b64val_b64char : ∀ n, n < 64 → b64val (b64char n) = some n := by decide

theorem b64decode_encode : ∀ bs : List Nat, (∀ b ∈ bs, b < 256) →
    b64decode (b64encode bs) = some bs
  | [] => fun _ => rfl
  | [b1] => by
      intro h
      have hb1 : b1 < 256 := h b1 (List.mem_singleton_self b1)
      rw [b64encode, b64decode.eq_def]
      simp only []
      rw [b64val_b64char _ (by omega), b64val_b64char _ (by omega)]
      simp only []
      congr 1
      rw [show b1 / 4 * 4 + b1 % 4 * 16 / 16 = b1 by omega]
  | [b1, b2] => by
      intro h
      have hb1 : b1 < 256 := h b1 (by simp)
      have hb2 : b2 < 256 := h b2 (by simp)
      rw [b64encode, b64decode.eq_def]
      simp only []
      rw [b64val_b64char _ (by omega), b64val_b64char _ (by omega),
        b64val_b64char _ (by omega)]
      simp only []
      congr 1
      rw [show b1 / 4 * 4 + (b1 % 4 * 16 + b2 / 16) / 16 = b1 by omega]
      congr 1
      rw [show (b1 % 4 * 16 + b2 / 16) % 16 * 16 + b2 % 16 * 4 / 4 = b2 by omega]
  | [b1, b2, b3] => by
      intro h
      have hb1 : b1 < 256 := h b1 (by simp)
      have hb2 : b2 < 256 := h b2 (by simp)
      have hb3 : b3 < 256 := h b3 (by simp)
      simp only [b64encode, b64decode]
      rw [b64val_b64char _ (by omega), b64val_b64char _ (by omega),
        b64val_b64char _ (by omega), b64val_b64char _ (by omega)]
      try simp only []
      rw [show b1 / 4 * 4 + (b1 % 4 * 16 + b2 / 16) / 16 = b1 by omega]
      rw [show (b1 % 4 * 16 + b2 / 16) % 16 * 16 + (b2 % 16 * 4 + b3 / 64) / 4 = b2 by omega]
      rw [show (b2 % 16 * 4 + b3 / 64) % 4 * 64 + b3 % 64 = b3 by omega]
  | b1 :: b2 :: b3 :: b4 :: rest => by
      intro h
      have hb1 : b1 < 256 := h b1 (by simp)
      have hb2 : b2 < 256 := h b2 (by simp)
      have hb3 : b3 < 256 := h b3 (by simp)
      have hrec := b64decode_encode (b4 :: rest)
        (fun b hb => h b (List.mem_cons_of_mem _ (List.mem_cons_of_mem _
          (List.mem_cons_of_mem _ hb))))
      simp only [b64encode, b64decode]
      rw [b64val_b64char _ (by omega), b64val_b64char _ (by omega),
        b64val_b64char _ (by omega), b64val_b64char _ (by omega), hrec]
      try simp only []
      rw [show b1 / 4 * 4 + (b1 % 4 * 16 + b2 / 16) / 16 = b1 by omega]
      rw [show (b1 % 4 * 16 + b2 / 16) % 16 * 16 + (b2 % 16 * 4 + b3 / 64) / 4 = b2 by omega]
      rw [show (b2 % 16 * 4 + b3 / 64) % 4 * 64 + b3 % 64 = b3 by omega]

theorem mem_escapeChars (c : Char) (cs : List Char) (h : c ∈ escapeChars cs) :
    c = backslashC ∨ c ∈ cs := by
  induction cs with
  | nil => simp [escapeChars] at h
  | cons c2 t ih =>
      simp only [escapeChars] at h
      rcases List.mem_append.mp h with h1 | h2
      · by_cases hc : c2 = quoteC ∨ c2 = backslashC
        · rw [if_pos hc] at h1
          simp only [List.mem_cons, List.not_mem_nil, or_false] at h1
          rcases h1 with rfl | rfl
          · exact Or.inl rfl
          · exact Or.inr (List.mem_cons_self _ _)
        · rw [if_neg hc] at h1
          simp only [List.mem_singleton] at h1
          subst h1
          exact Or.inr (List.mem_cons_self _ _)
      · rcases ih h2 with hb | hm
        · exact Or.inl hb
        · exact Or.inr (List.mem_cons_of_mem _ hm)

theorem isDigitC_toNat {c : Char} (h : isDigitC c = true) : c.toNat < 128 := by
  unfold isDigitC at h
  rw [decide_eq_true_iff] at h
  omega

theorem intToChars_ascii (i : Int) : ∀ c ∈ intToChars i, c.toNat < 128 := by
  intro c hc
  unfold intToChars at hc
  by_cases hneg : i < 0
  · rw [if_pos hneg] at hc
    rcases List.mem_cons.mp hc with rfl | h2
    · decide
    · exact isDigitC_toNat (natToChars_digits _ _ h2)
  · rw [if_neg hneg] at hc
    exact isDigitC_toNat (natToChars_digits _ _ hc)

theorem serializeStr_ascii (s : String) (hs : asciiStr s = true) :
    ∀ c ∈ serializeStr s, c.toNat < 128 := by
  intro c hc
  unfold serializeStr at hc
  rcases List.mem_cons.mp hc with rfl | h2
  · decide
  · rcases List.mem_append.mp h2 with h3 | h4
    · rcases mem_escapeChars c _ h3 with rfl | h5
      · decide
      · unfold asciiStr at hs
        rw [List.all_eq_true] at hs
        have h6 := hs c h5
        unfold asciiChar at h6
        rw [decide_eq_true_iff] at h6
        omega
    · simp only [List.mem_singleton] at h4
      subst h4
      decide

theorem serializeScalar_ascii (v : Value) (hv : asciiValue v = true) :
    ∀ c ∈ serializeScalar v, c.toNat < 128 := by
  intro c hc
  cases v with
  | vS s => exact serializeStr_ascii s hv c hc
  | vN n => exact intToChars_ascii n c hc
  | vB b => simp [serializeScalar] at hc
  | vL l => simp [serializeScalar] at hc

theorem entryChars_ascii (e : String × Value) (hn : asciiStr e.1 = true)
    (hv : asciiValue e.2 = true) : ∀ c ∈ entryChars e, c.toNat < 128 := by
  intro c hc
  unfold entryChars at hc
  rcases List.mem_append.mp hc with h1 | h2
  · exact serializeStr_ascii _ hn c h1
  · rcases List.mem_cons.mp h2 with rfl | h3
    · decide
    · exact serializeScalar_ascii _ hv c h3

theorem entriesChars_ascii (k : KeyMap)
    (h : ∀ e ∈ k, asciiStr e.1 = true ∧ asciiValue e.2 = true) :
    ∀ c ∈ entriesChars k, c.toNat < 128 := by
  induction k with
  | nil => intro c hc; simp [entriesChars] at hc
  | cons e es ih =>
      intro c hc
      cases es with
      | nil =>
          rw [show entriesChars [e] = entryChars e from rfl] at hc
          exact entryChars_ascii e (h e (List.mem_cons_self e [])).1
            (h e (List.mem_cons_self e [])).2 c hc
      | cons e2 es2 =>
          rw [show entriesChars (e :: e2 :: es2) =
            entryChars e ++ ',' :: entriesChars (e2 :: es2) from rfl] at hc
          rcases List.mem_append.mp hc with h1 | h2
          · exact entryChars_ascii e (h e (List.mem_cons_self e (e2 :: es2))).1
              (h e (List.mem_cons_self e (e2 :: es2))).2 c h1
          · rcases List.mem_cons.mp h2 with rfl | h3
            · decide
            · exact ih (fun e' he' => h e' (List.mem_cons_of_mem e he')) c h3

theorem serializeKeyMap_ascii (k : KeyMap)
    (h : ∀ e ∈ k, asciiStr e.1 = true ∧ asciiValue e.2 = true) :
    ∀ c ∈ serializeKeyMap k, c.toNat < 128 := by
  intro c hc
  unfold serializeKeyMap at hc
  rcases List.mem_cons.mp hc with rfl | h2
  · decide
  · rcases List.mem_append.mp h2 with h3 | h4
    · exact entriesChars_ascii k h c h3
    · simp only [List.mem_singleton] at h4
      subst h4
      decide

theorem map_ofNat_toNat (cs : List Char) : (cs.map Char.toNat).map Char.ofNat = cs := by
  rw [List.map_map]
  have h : (Char.ofNat ∘ Char.toNat) = id := funext (fun c => Char.ofNat_toNat c)
  rw [h, List.map_id]

/-- C3: for every valid key map, decoding the opaque pagination token
produced by encoding it yields the key map back exactly — no entry altered,
dropped or added. -/
theorem codec_roundtrip (k : KeyMap) (hk : ValidKeyMap k) :
    lastEvaluatedKeyOf (nextPage k) = some k := by
  obtain ⟨hvals, hnodup⟩ := hk
  unfold nextPage lastEvaluatedKeyOf
  show (match b64decode (b64encode ((serializeKeyMap k).map Char.toNat)) with
    | some bs => parseKeyMap (bs.map Char.ofNat)
    | Option.none => Option.none) = some k
  have hbytes : ∀ b ∈ (serializeKeyMap k).map Char.toNat, b < 256 := by
    intro b hb
    obtain ⟨c, hc, rfl⟩ := List.mem_map.mp hb
    have h7 := serializeKeyMap_ascii k
      (fun e he => ⟨(hvals e he).2.1, (hvals e he).2.2⟩) c hc
    omega
  rw [b64decode_encode _ hbytes]
  show parseKeyMap (((serializeKeyMap k).map Char.toNat).map Char.ofNat) = some k
  rw [map_ofNat_toNat]
  exact parseKeyMap_serialize k (fun e he => (hvals e he).1)

/-- Witness of C3 at a concrete input: the key map of the test round-trips
through the token unchanged. -/
theorem codec_roundtrip_witness :
    lastEvaluatedKeyOf (nextPage [("id", Value.vS "1234"), ("rangeKey", Value.vS "654")]) =
      some [("id", Value.vS "1234"), ("rangeKey", Value.vS "654")] :=
  codec_roundtrip [("id", Value.vS "1234"), ("rangeKey", Value.vS "654")]
    ⟨by decide, by decide⟩

end MoonMail
